import Mathlib

/-!
Shallow embedding of the semantic-version value type of
`python-alfred-workflow`: `utils.parse_version` (src/utils.py) and the
`Version` class (src/workflow_version.py).  Strings are modelled as
`List Char`; the code runs under CPython 2, so the embedding reproduces
Python 2 semantics where they matter (truthiness of `None`/`''`, and the
cross-type ordering used by `leftnumber > rightnumber`, where numeric
values compare below every string).
-/

namespace PyAlfred

/-- The character class `[0-9\.]` of the version regex. -/
def isVerChar (c : Char) : Bool := c.isDigit || c = '.'

/-- Python `str.split(sep)` for a one-character separator:
`''.split('.') = ['']`, `'a.b'.split('.') = ['a','b']`. -/
def splitChar (sep : Char) : List Char → List (List Char)
  | [] => [[]]
  | c :: cs =>
    if c = sep then [] :: splitChar sep cs
    else
      match splitChar sep cs with
      | [] => [[c]]
      | p :: ps => (c :: p) :: ps

/-- Value of a string of decimal digits, most significant first. -/
def strToNat (s : List Char) : Nat :=
  s.foldl (fun a c => a * 10 + (c.toNat - 48)) 0

/-- Python `int(s)`, restricted to the digit-only strings that reach it
inside `parse_version` (the components of a `[0-9\.]+` run): succeeds
exactly on nonempty all-digit strings (`int('')` raises `ValueError`). -/
def pyInt (s : List Char) : Option Nat :=
  if s ≠ [] ∧ s.all Char.isDigit then some (strToNat s) else none

/-- Decimal rendering of `n`, least significant digit assembled last;
`fuel` bounds the recursion and any `fuel > n` is enough. -/
def natToStrGo (fuel : Nat) (n : Nat) (acc : List Char) : List Char :=
  match fuel with
  | 0 => acc
  | fuel + 1 =>
    if n < 10 then Char.ofNat (48 + n) :: acc
    else natToStrGo fuel (n / 10) (Char.ofNat (48 + n % 10) :: acc)

/-- Python `str(n)` for a non-negative integer. -/
def natToStr (n : Nat) : List Char := natToStrGo (n + 1) n []

/-- Python 2 `unicode < unicode`: lexicographic comparison of code
points, a strict prefix being smaller. -/
def strLt : List Char → List Char → Bool
  | _, [] => false
  | [], _ :: _ => true
  | a :: as, b :: bs => if a = b then strLt as bs else decide (a < b)

/-- The two error kinds the spec names.  In the source both are raised
as Python `ValueError`; `formatError` covers every failure of
`parse_version`, `typeMismatch` the `isinstance` guards of the
comparison operators. -/
inductive PyErr where
  | formatError : PyErr
  | typeMismatch : PyErr
deriving DecidableEq

/-- Group 2 of the version regex, `([-+].+)?`, tried at the text that
follows group 1: it captures only when the first character is `-` or
`+` and at least one non-newline character follows, and it extends to
the next newline or the end of the string. -/
def matchSuffix : List Char → Option (List Char)
  | [] => none
  | c :: ds =>
    if c = '-' ∨ c = '+' then
      match ds.takeWhile (fun x => x ≠ '\n') with
      | [] => none
      | body => some (c :: body)
    else none

/-- The anchored prefix match of `re.compile(r'([0-9\.]+)([-+].+)?').match`:
group 1 is the maximal leading run of `[0-9\.]` (at least one character,
else no match); any text not captured by the optional group 2 is
ignored (`match`, not `fullmatch`). -/
def matchVersion (t : List Char) : Option (List Char × Option (List Char)) :=
  if t.takeWhile isVerChar = [] then none
  else some (t.takeWhile isVerChar, matchSuffix (t.dropWhile isVerChar))

/-- `string[1:]` when `string.startswith('v')`, else `string`. -/
def stripV (string : List Char) : List Char :=
  if string.head? = some 'v' then string.tail else string

/-- Lines 319-327 of src/utils.py: `major = int(parts.pop(0))`, then
`minor`/`patch` if further parts remain (defaulting to 0), then the
too-long check `if not len(parts) == 0`.  A failing `int('')` fires
before the too-long check, exactly as in the source; both raise
`ValueError`. -/
def parseNumeric3 : List (List Char) → Except PyErr (Nat × Nat × Nat)
  | [] => .error .formatError
  | [p0] =>
    match pyInt p0 with
    | none => .error .formatError
    | some major => .ok (major, 0, 0)
  | [p0, p1] =>
    match pyInt p0 with
    | none => .error .formatError
    | some major =>
      match pyInt p1 with
      | none => .error .formatError
      | some minor => .ok (major, minor, 0)
  | [p0, p1, p2] =>
    match pyInt p0 with
    | none => .error .formatError
    | some major =>
      match pyInt p1 with
      | none => .error .formatError
      | some minor =>
        match pyInt p2 with
        | none => .error .formatError
        | some patch => .ok (major, minor, patch)
  | p0 :: p1 :: p2 :: _ :: _ =>
    match pyInt p0 with
    | none => .error .formatError
    | some _ =>
      match pyInt p1 with
      | none => .error .formatError
      | some _ =>
        match pyInt p2 with
        | none => .error .formatError
        | some _ => .error .formatError

/-- Lines 329-340 of src/utils.py: split the captured suffix once on
`+`; the first part must start with `-` (which is consumed) and becomes
the release; the next part, when present, becomes the build (further
parts are dropped). -/
def parseSuffix (sfx : List Char) : Except PyErr (List Char × Option (List Char)) :=
  match splitChar '+' sfx with
  | [] => .error .formatError
  | r0 :: restParts =>
    match r0 with
    | '-' :: release => .ok (release, restParts.head?)
    | _ => .error .formatError

/-- `utils.parse_version` (src/utils.py, lines 298-342): strips one
leading `v`, matches the regex, converts the dot-separated components
of group 1 to integers, and processes a captured suffix into release
and build. -/
def parse_version (string : List Char) :
    Except PyErr (Nat × Nat × Nat × Option (List Char) × Option (List Char)) :=
  match matchVersion (stripV string) with
  | none => .error .formatError
  | some (run, suffixOpt) =>
    match parseNumeric3 (splitChar '.' run) with
    | .error e => .error e
    | .ok (major, minor, patch) =>
      match suffixOpt with
      | none => .ok (major, minor, patch, none, none)
      | some sfx =>
        match parseSuffix sfx with
        | .error e => .error e
        | .ok (release, build) => .ok (major, minor, patch, some release, build)

/-- The `Version` class (src/workflow_version.py): the original string
plus the five parsed fields. -/
structure Version where
  version : List Char
  major : Nat
  minor : Nat
  patch : Nat
  release : Option (List Char)
  build : Option (List Char)
deriving DecidableEq

/-- `Version.__init__`: parse the string and store the segments. -/
def Version.make (s : List Char) : Except PyErr Version :=
  match parse_version s with
  | .error e => .error e
  | .ok (major, minor, patch, release, build) =>
    .ok ⟨s, major, minor, patch, release, build⟩

/-- The `segments` property: the 5-tuple of parsed fields. -/
def Version.segments (v : Version) :
    Nat × Nat × Nat × Option (List Char) × Option (List Char) :=
  (v.major, v.minor, v.patch, v.release, v.build)

/-- Python truthiness of an optional string: `None` and `''` are falsy. -/
def truthy : Option (List Char) → Bool
  | none => false
  | some s => s ≠ []

/-- Python `>` on two 3-tuples of integers: lexicographic. -/
def tupleGt3 (a b : Nat × Nat × Nat) : Bool :=
  if a.1 = b.1 then
    if a.2.1 = b.2.1 then decide (b.2.2 < a.2.2)
    else decide (b.2.1 < a.2.1)
  else decide (b.1 < a.1)

/-- The values `leftnumber` / `rightnumber` of `Version.__gt__` can
hold: the integer sentinels `-1` / `0`, or the string kept from a
`x.y`-shaped release label (the code never converts it to an int). -/
inductive PyVal where
  | int : Int → PyVal
  | str : List Char → PyVal
deriving DecidableEq

/-- Python 2 `>` on the values above: ints numerically, strings
lexicographically, and any numeric value below any string (CPython 2
cross-type ordering). -/
def pyGt : PyVal → PyVal → Bool
  | .int a, .int b => decide (b < a)
  | .str a, .str b => strLt b a
  | .str _, .int _ => true
  | .int _, .str _ => false

/-- `leftnumber`: `-1` unless the release splits on `.` into exactly two
parts, in which case the second part, still a string. -/
def extractLeft (r : List Char) : PyVal :=
  match splitChar '.' r with
  | [_, x] => .str x
  | _ => .int (-1)

/-- `rightnumber`: same extraction but with sentinel `0`. -/
def extractRight (r : List Char) : PyVal :=
  match splitChar '.' r with
  | [_, x] => .str x
  | _ => .int 0

/-- `Version.__gt__` after the `isinstance` guard (src/workflow_version.py,
lines 68-100). -/
def Version.gt (a b : Version) : Bool :=
  let left := (a.major, a.minor, a.patch)
  let right := (b.major, b.minor, b.patch)
  if tupleGt3 left right then true
  else if left = right then
    if truthy a.release = false ∧ truthy b.release = false then false
    else if truthy a.release ∧ truthy b.release = false then false
    else if truthy b.release ∧ truthy a.release = false then true
    else
      match a.release, b.release with
      | some ρ, some σ => pyGt (extractLeft ρ) (extractRight σ)
      | _, _ => false
  else false

/-- `Version.__eq__` after the `isinstance` guard: equality of the full
5-tuples of segments (release and build included). -/
def Version.veq (a b : Version) : Bool := decide (a.segments = b.segments)

/-- `Version.__lt__` after the guard: `other.__gt__(self)`. -/
def Version.vlt (a b : Version) : Bool := Version.gt b a

/-- `Version.__le__` after the guard: `not self.__gt__(other)`. -/
def Version.vle (a b : Version) : Bool := !(Version.gt a b)

/-- `Version.__ge__` after the guard: `not other.__gt__(self)`. -/
def Version.vge (a b : Version) : Bool := !(Version.gt b a)

/-- The runtime values a comparison operand can be: a `Version`
instance or some non-version Python object. -/
inductive PyObj where
  | ver : Version → PyObj
  | str : List Char → PyObj
  | int : Int → PyObj
  | noneObj : PyObj

/-- `isinstance(other, Version)`. -/
def isVersionInstance : PyObj → Bool
  | .ver _ => true
  | _ => false

/-- `Version.__eq__` with its `isinstance` guard. -/
def Version.eqOp (a : Version) : PyObj → Except PyErr Bool
  | .ver b => .ok (a.veq b)
  | _ => .error .typeMismatch

/-- `Version.__ne__`: `not self.__eq__(other)` (the guard's error
propagates). -/
def Version.neOp (a : Version) (o : PyObj) : Except PyErr Bool :=
  match a.eqOp o with
  | .ok r => .ok (!r)
  | .error e => .error e

/-- `Version.__gt__` with its `isinstance` guard. -/
def Version.gtOp (a : Version) : PyObj → Except PyErr Bool
  | .ver b => .ok (a.gt b)
  | _ => .error .typeMismatch

/-- `Version.__ge__` with its `isinstance` guard. -/
def Version.geOp (a : Version) : PyObj → Except PyErr Bool
  | .ver b => .ok (!(b.gt a))
  | _ => .error .typeMismatch

/-- `Version.__lt__` with its `isinstance` guard. -/
def Version.ltOp (a : Version) : PyObj → Except PyErr Bool
  | .ver b => .ok (b.gt a)
  | _ => .error .typeMismatch

/-- `Version.__le__` with its `isinstance` guard. -/
def Version.leOp (a : Version) : PyObj → Except PyErr Bool
  | .ver b => .ok (!(a.gt b))
  | _ => .error .typeMismatch

/-- `Version.__str__` (render): `"{major}.{minor}.{patch}"`, then
`-release` if truthy, then `+build` if truthy. -/
def Version.render (v : Version) : List Char :=
  natToStr v.major ++ '.' :: natToStr v.minor ++ '.' :: natToStr v.patch
    ++ (if truthy v.release then '-' :: v.release.getD [] else [])
    ++ (if truthy v.build then '+' :: v.build.getD [] else [])

/-!
### Specification-side definitions

These restate properties in the words of the claims, independently of
the embedding above, so that the claim theorems compare the two.
-/

/-- The specification's reading of step 1 of `compare`: `a` is
lexicographically greater than `b` as integer triples. -/
def gtLex3 (a b : Nat × Nat × Nat) : Prop :=
  b.1 < a.1 ∨ (a.1 = b.1 ∧ (b.2.1 < a.2.1 ∨ (a.2.1 = b.2.1 ∧ b.2.2 < a.2.2)))

/-- The trailing component of a prerelease label, extracted only when
the label contains exactly one `.` separator (counted, not split). -/
def tailComponent (l : List Char) : Option (List Char) :=
  if l.count '.' = 1 then some ((l.dropWhile (fun c => c ≠ '.')).tail)
  else none

/-- The amended tie-break of step 2 when both operands carry a truthy
prerelease: compare the extracted trailing components under Python 2
value ordering — strings lexicographically, and any string above the
integer sentinels; with no component extracted on either side the
sentinels `-1 > 0` make the result `false`. -/
def preTieGt (l r : List Char) : Prop :=
  match tailComponent l, tailComponent r with
  | some x, some y => List.Lex (· < ·) y x
  | some _, none => True
  | none, some _ => False
  | none, none => False

/-- Text after the numeric run that begins with `+` and would be
captured by the regex (at least one non-newline character follows): the
one trailing-text shape the parser rejects. -/
def plusSuffixFlag : List Char → Bool
  | c :: d :: _ => c = '+' && d ≠ '\n'
  | _ => false

/-- The amended grammar of accepted inputs, stated on the text after
the optional `v` strip: a nonempty leading run of digits and dots whose
dot-split has at most three, all nonempty, components, not followed by
a `+` that starts a capturable (non-newline) suffix. -/
def goodVersion (t : List Char) : Bool :=
  let run := t.takeWhile isVerChar
  let rest := t.dropWhile isVerChar
  !run.isEmpty && decide ((splitChar '.' run).length ≤ 3) &&
    (splitChar '.' run).all (fun p => !p.isEmpty) &&
    !plusSuffixFlag rest

/-- A version string in fully canonical form: three canonical decimal
components, optionally `-prerelease`, optionally followed by `+build`,
with prerelease and build nonempty and free of `+` and newline. -/
def canonicalVersionString (s : List Char) : Prop :=
  ∃ M m p : Nat, ∃ tail : List Char,
    s = natToStr M ++ '.' :: (natToStr m ++ '.' :: natToStr p) ++ tail ∧
    (tail = [] ∨
      (∃ ρ, tail = '-' :: ρ ∧ ρ ≠ [] ∧ '+' ∉ ρ ∧ '\n' ∉ ρ) ∨
      (∃ ρ β, tail = '-' :: (ρ ++ '+' :: β) ∧ ρ ≠ [] ∧ '+' ∉ ρ ∧
        '\n' ∉ ρ ∧ β ≠ [] ∧ '+' ∉ β ∧ '\n' ∉ β))

/-! ### Helper lemmas about the string primitives -/

theorem splitChar_ne_nil (sep : Char) (l : List Char) : splitChar sep l ≠ [] := by
  cases l with
  | nil => simp [splitChar]
  | cons c cs =>
    simp only [splitChar]
    split
    · simp
    · cases h : splitChar sep cs <;> simp

theorem splitChar_no_sep (sep : Char) (l : List Char) (h : sep ∉ l) :
    splitChar sep l = [l] := by
  induction l with
  | nil => rfl
  | cons c cs ih =>
    simp only [List.mem_cons, not_or] at h
    have hcs : c ≠ sep := Ne.symm h.1
    simp only [splitChar, if_neg hcs, ih h.2]

theorem splitChar_append (sep : Char) (a rest : List Char) (h : sep ∉ a) :
    splitChar sep (a ++ sep :: rest) = a :: splitChar sep rest := by
  induction a with
  | nil => simp [splitChar]
  | cons c cs ih =>
    simp only [List.mem_cons, not_or] at h
    have hcs : c ≠ sep := Ne.symm h.1
    simp only [List.cons_append, splitChar, List.append_eq, if_neg hcs, ih h.2]

theorem splitChar_cons_ne_sep (sep c : Char) (cs : List Char) (h : c ≠ sep) :
    ∃ p ps, splitChar sep (c :: cs) = (c :: p) :: ps := by
  simp only [splitChar, if_neg h]
  cases hs : splitChar sep cs with
  | nil => exact ⟨[], [], rfl⟩
  | cons p ps => exact ⟨p, ps, rfl⟩

theorem mem_splitChar_not_sep (sep : Char) (l p : List Char)
    (hp : p ∈ splitChar sep l) : sep ∉ p := by
  induction l generalizing p with
  | nil =>
    simp only [splitChar, List.mem_singleton] at hp
    simp [hp]
  | cons c cs ih =>
    simp only [splitChar] at hp
    split at hp
    · rcases List.mem_cons.mp hp with h | h
      · simp [h]
      · exact ih p h
    · rename_i hc
      cases hs : splitChar sep cs with
      | nil =>
        simp only [hs, List.mem_singleton] at hp
        subst hp
        simp only [List.mem_singleton]
        exact fun hh => hc hh.symm
      | cons q qs =>
        rw [hs] at hp
        rcases List.mem_cons.mp hp with h | h
        · subst h
          intro hm
          rcases List.mem_cons.mp hm with h | h
          · exact hc h.symm
          · exact ih q (by simp [hs]) h
        · exact ih p (by simp [hs, h])

theorem mem_splitChar_subset (sep : Char) (l p : List Char)
    (hp : p ∈ splitChar sep l) : ∀ c ∈ p, c ∈ l := by
  induction l generalizing p with
  | nil =>
    simp only [splitChar, List.mem_singleton] at hp
    simp [hp]
  | cons c cs ih =>
    simp only [splitChar] at hp
    split at hp
    · rcases List.mem_cons.mp hp with h | h
      · simp [h]
      · intro x hx
        exact List.mem_cons_of_mem _ (ih p h x hx)
    · cases hs : splitChar sep cs with
      | nil => simp [hs] at hp; simp [hp]
      | cons q qs =>
        rw [hs] at hp
        rcases List.mem_cons.mp hp with h | h
        · subst h
          intro x hx
          rcases List.mem_cons.mp hx with h | h
          · simp [h]
          · exact List.mem_cons_of_mem _ (ih q (by simp [hs]) x h)
        · intro x hx
          exact List.mem_cons_of_mem _ (ih p (by simp [hs, h]) x hx)

theorem takeWhile_all (p : Char → Bool) (l : List Char) (h : ∀ c ∈ l, p c) :
    l.takeWhile p = l := by
  induction l with
  | nil => rfl
  | cons c cs ih =>
    simp only [List.takeWhile_cons, h c (by simp), ih fun x hx => h x (by simp [hx]),
      if_true]

theorem takeWhile_append_all (p : Char → Bool) (a b : List Char)
    (h : ∀ c ∈ a, p c) : (a ++ b).takeWhile p = a ++ b.takeWhile p := by
  induction a with
  | nil => rfl
  | cons c cs ih =>
    simp only [List.cons_append, List.takeWhile_cons, h c (by simp),
      ih fun x hx => h x (by simp [hx]), if_true]

theorem dropWhile_append_all (p : Char → Bool) (a b : List Char)
    (h : ∀ c ∈ a, p c) : (a ++ b).dropWhile p = b.dropWhile p := by
  induction a with
  | nil => rfl
  | cons c cs ih =>
    simp only [List.cons_append, List.dropWhile_cons, h c (by simp),
      ih fun x hx => h x (by simp [hx]), if_true]

theorem mem_takeWhile_sat (p : Char → Bool) (l : List Char) (c : Char)
    (h : c ∈ l.takeWhile p) : p c := by
  induction l with
  | nil => simp [List.takeWhile] at h
  | cons x xs ih =>
    simp only [List.takeWhile_cons] at h
    by_cases hx : p x
    · simp only [hx, if_true, List.mem_cons] at h
      rcases h with h | h
      · simpa [h] using hx
      · exact ih h
    · simp [hx] at h

theorem strLt_irrefl (s : List Char) : strLt s s = false := by
  induction s with
  | nil => rfl
  | cons c cs ih => simp [strLt, ih]

/-- `strLt` agrees with the standard lexicographic strict order on
character lists. -/
theorem strLt_iff_lex (a b : List Char) :
    strLt a b = true ↔ List.Lex (· < ·) a b := by
  induction a generalizing b with
  | nil =>
    cases b with
    | nil =>
      simp only [strLt, Bool.false_eq_true, false_iff]
      intro h
      nomatch h
    | cons y ys =>
      simp only [strLt, true_iff]
      exact List.Lex.nil
  | cons x xs ih =>
    cases b with
    | nil =>
      simp only [strLt, Bool.false_eq_true, false_iff]
      intro h
      nomatch h
    | cons y ys =>
      simp only [strLt]
      by_cases hxy : x = y
      · subst hxy
        rw [if_pos rfl, ih]
        constructor
        · exact fun h => List.Lex.cons h
        · intro h
          cases h with
          | cons h => exact h
          | rel h => exact absurd h (lt_irrefl x)
      · rw [if_neg hxy]
        constructor
        · intro h
          exact List.Lex.rel (by simpa using h)
        · intro h
          cases h with
          | cons _ => exact absurd rfl hxy
          | rel h => simpa using h

theorem tupleGt3_iff_gtLex3 (a b : Nat × Nat × Nat) :
    tupleGt3 a b = true ↔ gtLex3 a b := by
  unfold tupleGt3 gtLex3
  split_ifs with h1 h2 <;> simp only [decide_eq_true_eq] <;> omega

theorem tupleGt3_self (a : Nat × Nat × Nat) : tupleGt3 a a = false := by
  rw [Bool.eq_false_iff]
  intro h
  have := (tupleGt3_iff_gtLex3 a a).mp h
  unfold gtLex3 at this
  omega

theorem tupleGt3_asymm (a b : Nat × Nat × Nat) (h : tupleGt3 a b = true) :
    tupleGt3 b a = false := by
  rw [Bool.eq_false_iff]
  intro h2
  have h1 := (tupleGt3_iff_gtLex3 a b).mp h
  have h2 := (tupleGt3_iff_gtLex3 b a).mp h2
  unfold gtLex3 at h1 h2
  omega

theorem tupleGt3_total (a b : Nat × Nat × Nat) (h : a ≠ b) :
    tupleGt3 a b = true ∨ tupleGt3 b a = true := by
  rw [tupleGt3_iff_gtLex3, tupleGt3_iff_gtLex3]
  obtain ⟨a1, a2, a3⟩ := a
  obtain ⟨b1, b2, b3⟩ := b
  simp only [Ne, Prod.mk.injEq, not_and] at h
  unfold gtLex3
  simp only
  by_cases e1 : a1 = b1
  · by_cases e2 : a2 = b2
    · have e3 : a3 ≠ b3 := fun e3 => h e1 e2 e3
      omega
    · omega
  · omega

/-! ### Decimal rendering and parsing of naturals -/

theorem digitChar_toNat (d : Nat) (h : d < 10) :
    (Char.ofNat (48 + d)).toNat = 48 + d := by
  interval_cases d <;> decide

theorem digitChar_isDigit (d : Nat) (h : d < 10) :
    (Char.ofNat (48 + d)).isDigit = true := by
  interval_cases d <;> decide

theorem isDigit_ne_special (c : Char) (h : c.isDigit = true) :
    c ≠ '.' ∧ c ≠ 'v' ∧ c ≠ '+' ∧ c ≠ '-' ∧ c ≠ '\n' := by
  refine ⟨?_, ?_, ?_, ?_, ?_⟩ <;>
    · intro e
      rw [e] at h
      exact absurd h (by decide)

theorem isDigit_isVerChar (c : Char) (h : c.isDigit = true) :
    isVerChar c = true := by
  simp [isVerChar, h]

theorem natToStrGo_acc (fuel : Nat) :
    ∀ (n : Nat) (acc : List Char),
      natToStrGo fuel n acc = natToStrGo fuel n [] ++ acc := by
  induction fuel with
  | zero => intro n acc; rfl
  | succ fuel ih =>
    intro n acc
    by_cases h : n < 10
    · simp [natToStrGo, h]
    · simp only [natToStrGo, if_neg h]
      rw [ih (n / 10) (Char.ofNat (48 + n % 10) :: acc),
        ih (n / 10) [Char.ofNat (48 + n % 10)], List.append_assoc]
      rfl

theorem natToStrGo_fuel (fuel : Nat) :
    ∀ (fuel2 n : Nat) (acc : List Char), n < fuel → n < fuel2 →
      natToStrGo fuel n acc = natToStrGo fuel2 n acc := by
  induction fuel with
  | zero => intro fuel2 n acc h; omega
  | succ fuel ih =>
    intro fuel2 n acc h h2
    cases fuel2 with
    | zero => omega
    | succ fuel2 =>
      by_cases hn : n < 10
      · simp [natToStrGo, hn]
      · simp only [natToStrGo, if_neg hn]
        exact ih fuel2 (n / 10) _ (by omega) (by omega)

theorem natToStr_step (n : Nat) (h : ¬n < 10) :
    natToStr n = natToStr (n / 10) ++ [Char.ofNat (48 + n % 10)] := by
  unfold natToStr
  conv =>
    lhs
    rw [natToStrGo]
  rw [if_neg h, natToStrGo_acc,
    natToStrGo_fuel n (n / 10 + 1) (n / 10) [] (by omega) (by omega)]

theorem strToNat_append_digit (l : List Char) (c : Char) :
    strToNat (l ++ [c]) = strToNat l * 10 + (c.toNat - 48) := by
  simp [strToNat, List.foldl_append]

theorem strToNat_natToStr (n : Nat) : strToNat (natToStr n) = n := by
  induction n using Nat.strong_induction_on with
  | _ n ih =>
    by_cases h : n < 10
    · show strToNat (natToStrGo (n + 1) n []) = n
      rw [natToStrGo, if_pos h]
      simp only [strToNat, List.foldl_cons, List.foldl_nil]
      rw [digitChar_toNat n h]
      omega
    · rw [natToStr_step n h, strToNat_append_digit, ih (n / 10) (by omega),
        digitChar_toNat (n % 10) (by omega)]
      omega

theorem natToStrGo_digits (fuel : Nat) :
    ∀ (n : Nat) (acc : List Char), (∀ c ∈ acc, c.isDigit = true) →
      ∀ c ∈ natToStrGo fuel n acc, c.isDigit = true := by
  induction fuel with
  | zero => intro n acc hacc; exact hacc
  | succ fuel ih =>
    intro n acc hacc c hc
    by_cases h : n < 10
    · rw [natToStrGo, if_pos h] at hc
      rcases List.mem_cons.mp hc with e | e
      · rw [e]; exact digitChar_isDigit n h
      · exact hacc c e
    · rw [natToStrGo, if_neg h] at hc
      refine ih (n / 10) _ ?_ c hc
      intro x hx
      rcases List.mem_cons.mp hx with e | e
      · rw [e]; exact digitChar_isDigit (n % 10) (by omega)
      · exact hacc x e

theorem natToStr_digits (n : Nat) : ∀ c ∈ natToStr n, c.isDigit = true :=
  natToStrGo_digits (n + 1) n [] (by simp)

theorem natToStr_ne_nil (n : Nat) : natToStr n ≠ [] := by
  by_cases h : n < 10
  · show natToStrGo (n + 1) n [] ≠ []
    rw [natToStrGo, if_pos h]
    simp
  · rw [natToStr_step n h]
    simp

theorem pyInt_digits (d : List Char) (h0 : d ≠ [])
    (h1 : ∀ c ∈ d, c.isDigit = true) : pyInt d = some (strToNat d) := by
  have hall : d.all Char.isDigit = true := List.all_eq_true.mpr h1
  rw [pyInt, if_pos ⟨h0, hall⟩]

theorem pyInt_natToStr (n : Nat) : pyInt (natToStr n) = some n := by
  rw [pyInt_digits (natToStr n) (natToStr_ne_nil n) (natToStr_digits n),
    strToNat_natToStr]

/-! ### Lemmas about the regex match and the parsing stages -/

theorem dropWhile_all (p : Char → Bool) (l : List Char) (h : ∀ c ∈ l, p c) :
    l.dropWhile p = [] := by
  induction l with
  | nil => rfl
  | cons c cs ih =>
    simp only [List.dropWhile_cons, h c (by simp), if_true]
    exact ih fun x hx => h x (by simp [hx])

theorem matchSuffix_none : matchSuffix [] = none := rfl

theorem matchSuffix_capture (c : Char) (ds : List Char)
    (hc : c = '-' ∨ c = '+') (hds0 : ds ≠ []) (hds : '\n' ∉ ds) :
    matchSuffix (c :: ds) = some (c :: ds) := by
  have hall : ds.takeWhile (fun x => x ≠ '\n') = ds :=
    takeWhile_all _ ds fun x hx => by
      simp only [ne_eq, decide_eq_true_eq]
      exact fun e => hds (e ▸ hx)
  rw [matchSuffix, if_pos hc, hall]
  cases ds with
  | nil => exact absurd rfl hds0
  | cons d ds' => rfl

theorem matchSuffix_inv (rest sfx : List Char) (h : matchSuffix rest = some sfx) :
    ∃ c body, sfx = c :: body ∧ (c = '-' ∨ c = '+') ∧ body ≠ [] ∧
      '\n' ∉ body ∧ c ≠ '\n' := by
  cases rest with
  | nil => simp [matchSuffix] at h
  | cons c ds =>
    rw [matchSuffix] at h
    by_cases hc : c = '-' ∨ c = '+'
    · rw [if_pos hc] at h
      cases hbody : ds.takeWhile (fun x => x ≠ '\n') with
      | nil => rw [hbody] at h; exact absurd h (by simp)
      | cons b bs =>
        rw [hbody] at h
        refine ⟨c, b :: bs, by simpa using h.symm, hc, by simp, ?_, ?_⟩
        · intro hmem
          have := mem_takeWhile_sat (fun x => x ≠ '\n') ds '\n' (hbody ▸ hmem)
          simp at this
        · rcases hc with e | e <;> simp [e]
    · rw [if_neg hc] at h
      exact absurd h (by simp)

theorem matchVersion_all_ver (t : List Char) (h0 : t ≠ [])
    (h1 : ∀ c ∈ t, isVerChar c = true) :
    matchVersion t = some (t, none) := by
  rw [matchVersion, takeWhile_all isVerChar t h1, if_neg h0,
    dropWhile_all isVerChar t h1, matchSuffix_none]

theorem matchVersion_with_suffix (a : List Char) (c : Char) (ds : List Char)
    (ha0 : a ≠ []) (ha : ∀ x ∈ a, isVerChar x = true) (hc : isVerChar c = false)
    (hcd : c = '-' ∨ c = '+') (hds0 : ds ≠ []) (hds : '\n' ∉ ds) :
    matchVersion (a ++ c :: ds) = some (a, some (c :: ds)) := by
  have htake : (a ++ c :: ds).takeWhile isVerChar = a := by
    rw [takeWhile_append_all isVerChar a (c :: ds) ha, List.takeWhile_cons, hc]
    simp
  have hdrop : (a ++ c :: ds).dropWhile isVerChar = c :: ds := by
    rw [dropWhile_append_all isVerChar a (c :: ds) ha, List.dropWhile_cons, hc]
    simp
  rw [matchVersion, htake, if_neg ha0, hdrop, matchSuffix_capture c ds hcd hds0 hds]

theorem matchVersion_trailing (a : List Char) (rest : List Char)
    (ha0 : a ≠ []) (ha : ∀ x ∈ a, isVerChar x = true)
    (hrest : matchSuffix rest = none)
    (hhead : ∀ c ds, rest = c :: ds → isVerChar c = false) :
    matchVersion (a ++ rest) = some (a, none) := by
  have htake : (a ++ rest).takeWhile isVerChar = a := by
    rw [takeWhile_append_all isVerChar a rest ha]
    cases rest with
    | nil => simp
    | cons c ds => rw [List.takeWhile_cons, hhead c ds rfl]; simp
  have hdrop : (a ++ rest).dropWhile isVerChar = rest := by
    rw [dropWhile_append_all isVerChar a rest ha]
    cases rest with
    | nil => rfl
    | cons c ds => rw [List.dropWhile_cons, hhead c ds rfl]; simp
  rw [matchVersion, htake, if_neg ha0, hdrop, hrest]

theorem matchVersion_inv (t run : List Char) (sfxOpt : Option (List Char))
    (h : matchVersion t = some (run, sfxOpt)) :
    run = t.takeWhile isVerChar ∧ run ≠ [] ∧
      sfxOpt = matchSuffix (t.dropWhile isVerChar) := by
  rw [matchVersion] at h
  by_cases h0 : t.takeWhile isVerChar = []
  · rw [if_pos h0] at h; exact absurd h (by simp)
  · rw [if_neg h0] at h
    have := Option.some.inj h
    rw [Prod.mk.injEq] at this
    exact ⟨this.1.symm, this.1 ▸ h0, this.2.symm⟩

theorem parseSuffix_dash (ρ : List Char) (hρ : '+' ∉ ρ) :
    parseSuffix ('-' :: ρ) = .ok (ρ, none) := by
  have hmem : ('+' : Char) ∉ '-' :: ρ := by
    intro hm
    rcases List.mem_cons.mp hm with e | e
    · exact absurd e (by decide)
    · exact hρ e
  rw [parseSuffix, splitChar_no_sep '+' ('-' :: ρ) hmem]
  rfl

theorem parseSuffix_dash_build (ρ β : List Char) (hρ : '+' ∉ ρ) (hβ : '+' ∉ β) :
    parseSuffix ('-' :: ρ ++ '+' :: β) = .ok (ρ, some β) := by
  have hmem : ('+' : Char) ∉ '-' :: ρ := by
    intro hm
    rcases List.mem_cons.mp hm with e | e
    · exact absurd e (by decide)
    · exact hρ e
  rw [parseSuffix, splitChar_append '+' ('-' :: ρ) β hmem,
    splitChar_no_sep '+' β hβ]
  rfl

theorem parseSuffix_ok_inv (sfx ρ : List Char) (b : Option (List Char))
    (h : parseSuffix sfx = .ok (ρ, b)) :
    '+' ∉ ρ ∧ (∀ c ∈ ρ, c ∈ sfx) ∧ sfx.head? = some '-' ∧
      (∀ β, b = some β → '+' ∉ β ∧ ∀ c ∈ β, c ∈ sfx) := by
  rw [parseSuffix] at h
  cases hs : splitChar '+' sfx with
  | nil => rw [hs] at h; exact absurd h (by simp)
  | cons r0 restParts =>
    rw [hs] at h
    cases r0 with
    | nil => simp at h
    | cons c rel =>
      by_cases hc : c = '-'
      case neg => simp [hc] at h
      subst hc
      simp at h
      obtain ⟨e1, e2⟩ := h
      have hr0mem : ('-' :: ρ) ∈ splitChar '+' sfx := by
        rw [hs, e1]
        simp
      have hnosep := mem_splitChar_not_sep '+' sfx _ hr0mem
      have hsub := mem_splitChar_subset '+' sfx _ hr0mem
      refine ⟨fun hm => hnosep (List.mem_cons_of_mem _ hm),
        fun x hx => hsub x (List.mem_cons_of_mem _ hx), ?_, ?_⟩
      · cases sfx with
        | nil => simp [splitChar] at hs
        | cons x xs =>
          by_cases hx : x = '+'
          · subst hx
            rw [splitChar, if_pos rfl] at hs
            simp at hs
          · obtain ⟨pp, pps, hpp⟩ := splitChar_cons_ne_sep '+' x xs hx
            rw [hpp] at hs
            have hx2 : x = '-' := by
              have h1 := ((List.cons.injEq _ _ _ _).mp hs).1
              exact ((List.cons.injEq _ _ _ _).mp h1).1
            simp [hx2]
      · intro β hβ
        rw [← e2] at hβ
        have hβmem : β ∈ restParts := by
          cases restParts with
          | nil => simp at hβ
          | cons q qs =>
            have hq : q = β := by simpa using hβ
            simp [hq]
        have hβ2 : β ∈ splitChar '+' sfx := by
          rw [hs]
          exact List.mem_cons_of_mem _ hβmem
        exact ⟨mem_splitChar_not_sep '+' sfx β hβ2,
          fun x hx => mem_splitChar_subset '+' sfx β hβ2 x hx⟩

theorem parseSuffix_plus (body : List Char) :
    parseSuffix ('+' :: body) = .error .formatError := by
  rw [parseSuffix, splitChar]
  simp

/-! ### Parsing a rendered version -/

theorem natToStr_no_dot (n : Nat) : ('.' : Char) ∉ natToStr n :=
  fun hm => (isDigit_ne_special _ (natToStr_digits n _ hm)).1 rfl

theorem trip_all_ver (M m p : Nat) :
    ∀ c ∈ natToStr M ++ '.' :: (natToStr m ++ '.' :: natToStr p),
      isVerChar c = true := by
  intro c hc
  simp only [List.mem_append, List.mem_cons] at hc
  rcases hc with h | h | h | h | h
  · exact isDigit_isVerChar c (natToStr_digits M c h)
  · rw [h]; rfl
  · exact isDigit_isVerChar c (natToStr_digits m c h)
  · rw [h]; rfl
  · exact isDigit_isVerChar c (natToStr_digits p c h)

theorem trip_ne_nil (M m p : Nat) :
    natToStr M ++ '.' :: (natToStr m ++ '.' :: natToStr p) ≠ [] := by
  cases h : natToStr M with
  | nil => exact absurd h (natToStr_ne_nil M)
  | cons c cs => simp

theorem splitChar_trip (M m p : Nat) :
    splitChar '.' (natToStr M ++ '.' :: (natToStr m ++ '.' :: natToStr p))
      = [natToStr M, natToStr m, natToStr p] := by
  rw [splitChar_append '.' (natToStr M) _ (natToStr_no_dot M),
    splitChar_append '.' (natToStr m) _ (natToStr_no_dot m),
    splitChar_no_sep '.' (natToStr p) (natToStr_no_dot p)]

theorem parseNumeric3_natToStr (M m p : Nat) :
    parseNumeric3 [natToStr M, natToStr m, natToStr p] = .ok (M, m, p) := by
  simp [parseNumeric3, pyInt_natToStr]

theorem stripV_append_digits (A X : List Char) (hA : A ≠ [])
    (hd : ∀ c ∈ A, c.isDigit = true) : stripV (A ++ X) = A ++ X := by
  cases A with
  | nil => exact absurd rfl hA
  | cons c cs =>
    have hcv : c ≠ 'v' := (isDigit_ne_special c (hd c (by simp))).2.1
    simp only [stripV, List.cons_append, List.head?_cons]
    rw [if_neg fun he => hcv (Option.some.inj he)]

/-- Parsing the canonical rendering of a field tuple recovers the
fields, provided the release is a nonempty string without `+` or
newline, and the build (when present) likewise, with a nonempty release
alongside it. -/
theorem parse_render_fields (M m p : Nat) (r b : Option (List Char))
    (ver : List Char)
    (hr : ∀ ρ, r = some ρ → ρ ≠ [] ∧ '+' ∉ ρ ∧ '\n' ∉ ρ)
    (hb : ∀ β, b = some β → β ≠ [] ∧ '+' ∉ β ∧ '\n' ∉ β ∧
      ∃ ρ, r = some ρ ∧ ρ ≠ []) :
    parse_version (Version.render ⟨ver, M, m, p, r, b⟩) = .ok (M, m, p, r, b) := by
  have hver := trip_all_ver M m p
  have hne := trip_ne_nil M m p
  have hstrip : ∀ X, stripV ((natToStr M ++ '.' :: (natToStr m ++ '.' :: natToStr p)) ++ X)
      = (natToStr M ++ '.' :: (natToStr m ++ '.' :: natToStr p)) ++ X := by
    intro X
    rw [List.append_assoc]
    exact stripV_append_digits (natToStr M) _ (natToStr_ne_nil M) (natToStr_digits M)
  rcases r with _ | ρ
  · have hbnone : b = none := by
      rcases b with _ | β
      · rfl
      · obtain ⟨_, _, _, ρ, hρ, _⟩ := hb β rfl
        exact absurd hρ (by simp)
    subst hbnone
    have hrender : Version.render ⟨ver, M, m, p, none, none⟩
        = (natToStr M ++ '.' :: (natToStr m ++ '.' :: natToStr p)) ++ [] := by
      simp [Version.render, truthy, List.append_assoc]
    have hstrip0 : stripV (natToStr M ++ '.' :: (natToStr m ++ '.' :: natToStr p))
        = natToStr M ++ '.' :: (natToStr m ++ '.' :: natToStr p) := by
      have h0 := hstrip []
      rwa [List.append_nil] at h0
    rw [hrender, List.append_nil, parse_version, hstrip0]
    simp only [matchVersion_all_ver _ hne hver, splitChar_trip,
      parseNumeric3_natToStr]
  · obtain ⟨hρ0, hρp, hρn⟩ := hr ρ rfl
    have htr : truthy (some ρ) = true := by simp [truthy, hρ0]
    rcases b with _ | β
    · have hrender : Version.render ⟨ver, M, m, p, some ρ, none⟩
          = (natToStr M ++ '.' :: (natToStr m ++ '.' :: natToStr p)) ++ '-' :: ρ := by
        simp [Version.render, truthy, hρ0, List.append_assoc]
      rw [hrender, parse_version, hstrip]
      simp only [matchVersion_with_suffix _ '-' ρ hne hver (by decide)
          (Or.inl rfl) hρ0 hρn,
        splitChar_trip, parseNumeric3_natToStr, parseSuffix_dash ρ hρp]
    · obtain ⟨hβ0, hβp, hβn, _⟩ := hb β rfl
      have hds0 : ρ ++ '+' :: β ≠ [] := by
        cases ρ <;> simp
      have hdsn : ('\n' : Char) ∉ ρ ++ '+' :: β := by
        intro hm
        rcases List.mem_append.mp hm with h | h
        · exact hρn h
        · rcases List.mem_cons.mp h with h | h
          · exact absurd h (by decide)
          · exact hβn h
      have hrender : Version.render ⟨ver, M, m, p, some ρ, some β⟩
          = (natToStr M ++ '.' :: (natToStr m ++ '.' :: natToStr p))
            ++ '-' :: (ρ ++ '+' :: β) := by
        simp [Version.render, truthy, hρ0, hβ0, List.append_assoc]
      have hsfx : parseSuffix ('-' :: (ρ ++ '+' :: β)) = .ok (ρ, some β) := by
        have := parseSuffix_dash_build ρ β hρp hβp
        rwa [List.cons_append] at this
      rw [hrender, parse_version, hstrip]
      simp only [matchVersion_with_suffix _ '-' (ρ ++ '+' :: β) hne hver
          (by decide) (Or.inl rfl) hds0 hdsn,
        splitChar_trip, parseNumeric3_natToStr, hsfx]

/-- Invariants of every successful parse: the release never contains
`+` or a newline; a build implies a release is present and itself
contains no `+` or newline. -/
theorem parse_version_ok_inv (s : List Char) (M m p : Nat)
    (r b : Option (List Char)) (h : parse_version s = .ok (M, m, p, r, b)) :
    (∀ ρ, r = some ρ → '+' ∉ ρ ∧ '\n' ∉ ρ) ∧
      (∀ β, b = some β → '+' ∉ β ∧ '\n' ∉ β ∧ ∃ ρ, r = some ρ) := by
  rw [parse_version] at h
  cases hm : matchVersion (stripV s) with
  | none => rw [hm] at h; simp at h
  | some pair =>
    obtain ⟨run, sfxOpt⟩ := pair
    rw [hm] at h
    simp only at h
    cases hn : parseNumeric3 (splitChar '.' run) with
    | error e => rw [hn] at h; simp at h
    | ok trip =>
      obtain ⟨M', m', p'⟩ := trip
      rw [hn] at h
      simp only at h
      cases sfxOpt with
      | none =>
        simp only at h
        simp only [Except.ok.injEq, Prod.mk.injEq] at h
        obtain ⟨-, -, -, hrr, hbb⟩ := h
        refine ⟨fun ρ hρ => ?_, fun β hβ => ?_⟩
        · rw [← hrr] at hρ; exact absurd hρ (by simp)
        · rw [← hbb] at hβ; exact absurd hβ (by simp)
      | some sfx =>
        simp only at h
        cases hps : parseSuffix sfx with
        | error e => rw [hps] at h; simp at h
        | ok rb =>
          obtain ⟨ρ0, b0⟩ := rb
          rw [hps] at h
          simp only [Except.ok.injEq, Prod.mk.injEq] at h
          obtain ⟨-, -, -, hrr, hbb⟩ := h
          obtain ⟨-, -, hsfx_eq⟩ := matchVersion_inv _ _ _ hm
          obtain ⟨c, body, hsfx_shape, hcd, -, hbody_nl, hc_nl⟩ :=
            matchSuffix_inv _ sfx hsfx_eq.symm
          have hsfx_nl : ('\n' : Char) ∉ sfx := by
            rw [hsfx_shape]
            intro hmem
            rcases List.mem_cons.mp hmem with e | e
            · exact hc_nl e.symm
            · exact hbody_nl e
          obtain ⟨hρplus, hρsub, -, hbuild⟩ := parseSuffix_ok_inv sfx ρ0 b0 hps
          refine ⟨fun ρ hρ => ?_, fun β hβ => ?_⟩
          · rw [← hrr] at hρ
            have : ρ0 = ρ := Option.some.inj hρ
            subst this
            exact ⟨hρplus, fun hmem => hsfx_nl (hρsub '\n' hmem)⟩
          · rw [← hbb] at hβ
            obtain ⟨hβplus, hβsub⟩ := hbuild β hβ
            exact ⟨hβplus, fun hmem => hsfx_nl (hβsub '\n' hmem),
              ρ0, hrr.symm ▸ rfl⟩

/-! ### Comparison helper lemmas -/

theorem tupleGt3_false_iff (a b : Nat × Nat × Nat) :
    tupleGt3 a b = false ↔ ¬gtLex3 a b := by
  rw [Bool.eq_false_iff]
  exact not_congr (tupleGt3_iff_gtLex3 a b)

theorem gt_of_triples_ne (a b : Version)
    (h : (a.major, a.minor, a.patch) ≠ (b.major, b.minor, b.patch)) :
    Version.gt a b = tupleGt3 (a.major, a.minor, a.patch) (b.major, b.minor, b.patch) := by
  simp only [Version.gt]
  cases htg : tupleGt3 (a.major, a.minor, a.patch) (b.major, b.minor, b.patch) with
  | true => simp [htg]
  | false => simp [htg, h]

theorem extract_self_not_gt (ρ : List Char) :
    pyGt (extractLeft ρ) (extractRight ρ) = false := by
  unfold extractLeft extractRight
  rcases hs : splitChar '.' ρ with _ | ⟨p1, _ | ⟨p2, _ | ⟨p3, ps⟩⟩⟩ <;>
    simp [pyGt, strLt_irrefl]

theorem veq_iff_fields (a b : Version) : Version.veq a b = true ↔
    ((a.major, a.minor, a.patch) = (b.major, b.minor, b.patch) ∧
      a.release = b.release ∧ a.build = b.build) := by
  simp [Version.veq, Version.segments, Prod.mk.injEq, and_assoc]

theorem gt_of_like (a b : Version)
    (htr : (a.major, a.minor, a.patch) = (b.major, b.minor, b.patch))
    (hrel : a.release = b.release) : Version.gt a b = false := by
  simp only [Version.gt]
  rw [htr, tupleGt3_self]
  simp only [Bool.false_eq_true, if_false, if_pos rfl, hrel]
  cases hb : truthy b.release with
  | false => simp [hb]
  | true =>
    simp only [hb]
    simp only [Bool.true_eq_false, and_false, false_and, if_false, and_self]
    cases hrr : b.release with
    | none => rw [hrr, truthy] at hb; exact absurd hb (by simp)
    | some ρ => simp [extract_self_not_gt]

/-! ### Claim theorems -/

/-- C8: for every parsed version `v` and every operand `x` that is not
a version value, each of the six comparison/equality operators fails
with a TypeMismatch error (`ValueError` in the source) rather than
returning a boolean. -/
theorem claim8_type_mismatch (v : Version) (x : PyObj)
    (h : isVersionInstance x = false) :
    v.eqOp x = .error .typeMismatch ∧ v.neOp x = .error .typeMismatch ∧
      v.gtOp x = .error .typeMismatch ∧ v.geOp x = .error .typeMismatch ∧
      v.ltOp x = .error .typeMismatch ∧ v.leOp x = .error .typeMismatch := by
  cases x with
  | ver b => simp [isVersionInstance] at h
  | str s => exact ⟨rfl, rfl, rfl, rfl, rfl, rfl⟩
  | int n => exact ⟨rfl, rfl, rfl, rfl, rfl, rfl⟩
  | noneObj => exact ⟨rfl, rfl, rfl, rfl, rfl, rfl⟩

/-- Witness for C8: comparing the parsed version `1.0.0` against the
plain string `1.0.0` raises TypeMismatch on all six operators. -/
theorem claim8_witness :
    (Version.eqOp ⟨"1.0.0".toList, 1, 0, 0, none, none⟩ (.str "1.0.0".toList)
        = .error .typeMismatch) ∧
      (Version.neOp ⟨"1.0.0".toList, 1, 0, 0, none, none⟩ (.str "1.0.0".toList)
        = .error .typeMismatch) ∧
      (Version.gtOp ⟨"1.0.0".toList, 1, 0, 0, none, none⟩ (.str "1.0.0".toList)
        = .error .typeMismatch) ∧
      (Version.geOp ⟨"1.0.0".toList, 1, 0, 0, none, none⟩ (.str "1.0.0".toList)
        = .error .typeMismatch) ∧
      (Version.ltOp ⟨"1.0.0".toList, 1, 0, 0, none, none⟩ (.str "1.0.0".toList)
        = .error .typeMismatch) ∧
      (Version.leOp ⟨"1.0.0".toList, 1, 0, 0, none, none⟩ (.str "1.0.0".toList)
        = .error .typeMismatch) :=
  claim8_type_mismatch ⟨"1.0.0".toList, 1, 0, 0, none, none⟩
    (.str "1.0.0".toList) rfl

/-- C5 (amended): the four ordering comparisons never consult `build`
(replacing either operand's build leaves them unchanged), but the
equality check compares the full 5-tuple of segments including
`build`, so replacing a build value can change equality. -/
theorem claim5_build_amended :
    (∀ (a b : Version) (x y : Option (List Char)),
        Version.gt { a with build := x } { b with build := y } = Version.gt a b ∧
          Version.vlt { a with build := x } { b with build := y } = Version.vlt a b ∧
          Version.vle { a with build := x } { b with build := y } = Version.vle a b ∧
          Version.vge { a with build := x } { b with build := y } = Version.vge a b) ∧
      (∀ a b : Version, Version.veq a b = true ↔
        ((a.major, a.minor, a.patch) = (b.major, b.minor, b.patch) ∧
          a.release = b.release ∧ a.build = b.build)) :=
  ⟨fun _ _ _ _ => ⟨rfl, rfl, rfl, rfl⟩, veq_iff_fields⟩

/-- Counterexample to C5 as stated: `1.2.3-a+x` and `1.2.3-a+y` parse
successfully, differ only in `build`, and compare unequal; replacing
the first operand's build by the second's makes them equal.  Equality
therefore does consult `build`. -/
theorem claim5_counterexample :
    Version.make "1.2.3-a+x".toList
        = .ok ⟨"1.2.3-a+x".toList, 1, 2, 3, some "a".toList, some "x".toList⟩ ∧
      Version.make "1.2.3-a+y".toList
        = .ok ⟨"1.2.3-a+y".toList, 1, 2, 3, some "a".toList, some "y".toList⟩ ∧
      Version.veq ⟨"1.2.3-a+x".toList, 1, 2, 3, some "a".toList, some "x".toList⟩
        ⟨"1.2.3-a+y".toList, 1, 2, 3, some "a".toList, some "y".toList⟩ = false ∧
      Version.veq ⟨"1.2.3-a+x".toList, 1, 2, 3, some "a".toList, some "y".toList⟩
        ⟨"1.2.3-a+y".toList, 1, 2, 3, some "a".toList, some "y".toList⟩ = true :=
  ⟨rfl, rfl, rfl, rfl⟩

/-- C3: when two parsed versions share their numeric triple and exactly
one has a (truthy) prerelease, the one without the prerelease compares
strictly greater, and the two are unequal. -/
theorem claim3_release_beats_prerelease (s t : List Char) (a b : Version)
    (hs : Version.make s = .ok a) (ht : Version.make t = .ok b)
    (htr : (a.major, a.minor, a.patch) = (b.major, b.minor, b.patch))
    (ha : truthy a.release = true) (hb : truthy b.release = false) :
    Version.gt b a = true ∧ Version.gt a b = false ∧
      Version.vlt a b = true ∧ Version.veq a b = false := by
  have e : (b.major, b.minor, b.patch) = (a.major, a.minor, a.patch) := htr.symm
  have hgtba : Version.gt b a = true := by
    simp only [Version.gt]
    rw [e, tupleGt3_self]
    simp [ha, hb]
  have hgtab : Version.gt a b = false := by
    simp only [Version.gt]
    rw [htr, tupleGt3_self]
    simp [ha, hb]
  have hrel : a.release ≠ b.release := by
    intro e2
    rw [e2, hb] at ha
    exact absurd ha (by simp)
  refine ⟨hgtba, hgtab, hgtba, ?_⟩
  rw [Bool.eq_false_iff]
  intro hveq
  exact hrel ((veq_iff_fields a b).mp hveq).2.1

/-- Witness for C3: `1.2.3-beta < 1.2.3`. -/
theorem claim3_witness :
    Version.gt ⟨"1.2.3".toList, 1, 2, 3, none, none⟩
        ⟨"1.2.3-beta".toList, 1, 2, 3, some "beta".toList, none⟩ = true ∧
      Version.gt ⟨"1.2.3-beta".toList, 1, 2, 3, some "beta".toList, none⟩
        ⟨"1.2.3".toList, 1, 2, 3, none, none⟩ = false ∧
      Version.vlt ⟨"1.2.3-beta".toList, 1, 2, 3, some "beta".toList, none⟩
        ⟨"1.2.3".toList, 1, 2, 3, none, none⟩ = true ∧
      Version.veq ⟨"1.2.3-beta".toList, 1, 2, 3, some "beta".toList, none⟩
        ⟨"1.2.3".toList, 1, 2, 3, none, none⟩ = false :=
  claim3_release_beats_prerelease "1.2.3-beta".toList "1.2.3".toList
    ⟨"1.2.3-beta".toList, 1, 2, 3, some "beta".toList, none⟩
    ⟨"1.2.3".toList, 1, 2, 3, none, none⟩ rfl rfl rfl rfl rfl

/-- C2: when two parsed versions have distinct numeric triples, every
ordering comparison is decided exactly by the lexicographic comparison
of the triples, independently of prerelease and build, and the versions
are unequal. -/
theorem claim2_lexicographic_triples (s t : List Char) (a b : Version)
    (hs : Version.make s = .ok a) (ht : Version.make t = .ok b)
    (hne : (a.major, a.minor, a.patch) ≠ (b.major, b.minor, b.patch)) :
    (Version.gt a b = true ↔
        gtLex3 (a.major, a.minor, a.patch) (b.major, b.minor, b.patch)) ∧
      (Version.vlt a b = true ↔
        gtLex3 (b.major, b.minor, b.patch) (a.major, a.minor, a.patch)) ∧
      (Version.vge a b = true ↔
        ¬gtLex3 (b.major, b.minor, b.patch) (a.major, a.minor, a.patch)) ∧
      (Version.vle a b = true ↔
        ¬gtLex3 (a.major, a.minor, a.patch) (b.major, b.minor, b.patch)) ∧
      Version.veq a b = false := by
  have hab := gt_of_triples_ne a b hne
  have hba := gt_of_triples_ne b a (Ne.symm hne)
  refine ⟨?_, ?_, ?_, ?_, ?_⟩
  · rw [hab]; exact tupleGt3_iff_gtLex3 _ _
  · rw [Version.vlt, hba]; exact tupleGt3_iff_gtLex3 _ _
  · rw [Version.vge, hba, Bool.not_eq_true']
    exact tupleGt3_false_iff _ _
  · rw [Version.vle, hab, Bool.not_eq_true']
    exact tupleGt3_false_iff _ _
  · rw [Bool.eq_false_iff]
    intro hveq
    exact hne ((veq_iff_fields a b).mp hveq).1

/-- Witness for C2: `2.0.0 > 1.9.9`. -/
theorem claim2_witness :
    (Version.gt ⟨"2.0.0".toList, 2, 0, 0, none, none⟩
        ⟨"1.9.9".toList, 1, 9, 9, none, none⟩ = true ↔ gtLex3 (2, 0, 0) (1, 9, 9)) ∧
      (Version.vlt ⟨"2.0.0".toList, 2, 0, 0, none, none⟩
        ⟨"1.9.9".toList, 1, 9, 9, none, none⟩ = true ↔ gtLex3 (1, 9, 9) (2, 0, 0)) ∧
      (Version.vge ⟨"2.0.0".toList, 2, 0, 0, none, none⟩
        ⟨"1.9.9".toList, 1, 9, 9, none, none⟩ = true ↔ ¬gtLex3 (1, 9, 9) (2, 0, 0)) ∧
      (Version.vle ⟨"2.0.0".toList, 2, 0, 0, none, none⟩
        ⟨"1.9.9".toList, 1, 9, 9, none, none⟩ = true ↔ ¬gtLex3 (2, 0, 0) (1, 9, 9)) ∧
      Version.veq ⟨"2.0.0".toList, 2, 0, 0, none, none⟩
        ⟨"1.9.9".toList, 1, 9, 9, none, none⟩ = false :=
  claim2_lexicographic_triples "2.0.0".toList "1.9.9".toList
    ⟨"2.0.0".toList, 2, 0, 0, none, none⟩ ⟨"1.9.9".toList, 1, 9, 9, none, none⟩
    rfl rfl (by decide)

/-- C1 (amended): the comparisons behave trichotomously — exactly one
of `a < b`, `a == b`, `a > b` holds (`<` being the flipped `>`) —
whenever the two parsed versions either differ in their numeric triples
or agree in both prerelease and build.  (As originally stated the claim
fails: two versions with equal triples and incomparable prerelease
labels, or differing only in build, satisfy none of the three.) -/
theorem claim1_trichotomy_amended (s t : List Char) (a b : Version)
    (hs : Version.make s = .ok a) (ht : Version.make t = .ok b)
    (hcond : (a.major, a.minor, a.patch) ≠ (b.major, b.minor, b.patch) ∨
      (a.release = b.release ∧ a.build = b.build)) :
    (Version.vlt a b = true ∧ Version.veq a b = false ∧ Version.gt a b = false) ∨
      (Version.vlt a b = false ∧ Version.veq a b = true ∧ Version.gt a b = false) ∨
      (Version.vlt a b = false ∧ Version.veq a b = false ∧ Version.gt a b = true) := by
  by_cases htr : (a.major, a.minor, a.patch) = (b.major, b.minor, b.patch)
  · rcases hcond with hne | ⟨hrel, hbuild⟩
    · exact absurd htr hne
    · refine Or.inr (Or.inl ⟨?_, (veq_iff_fields a b).mpr ⟨htr, hrel, hbuild⟩,
        gt_of_like a b htr hrel⟩)
      rw [Version.vlt]
      exact gt_of_like b a htr.symm hrel.symm
  · have hab := gt_of_triples_ne a b htr
    have hba := gt_of_triples_ne b a (Ne.symm htr)
    have hveq : Version.veq a b = false := by
      rw [Bool.eq_false_iff]
      intro h
      exact htr ((veq_iff_fields a b).mp h).1
    rcases tupleGt3_total _ _ htr with hgt | hgt
    · refine Or.inr (Or.inr ⟨?_, hveq, ?_⟩)
      · rw [Version.vlt, hba]
        exact tupleGt3_asymm _ _ hgt
      · rw [hab]
        exact hgt
    · refine Or.inl ⟨?_, hveq, ?_⟩
      · rw [Version.vlt, hba]
        exact hgt
      · rw [hab]
        exact tupleGt3_asymm _ _ hgt

/-- Counterexample to C1 as stated: `1.2.3-beta` and `1.2.3-alfa` both
parse, yet none of `<`, `==`, `>` holds between them (both prerelease
extractions fall back to the sentinels `-1 > 0`), so the comparisons do
not form a total order. -/
theorem claim1_counterexample :
    Version.make "1.2.3-beta".toList
        = .ok ⟨"1.2.3-beta".toList, 1, 2, 3, some "beta".toList, none⟩ ∧
      Version.make "1.2.3-alfa".toList
        = .ok ⟨"1.2.3-alfa".toList, 1, 2, 3, some "alfa".toList, none⟩ ∧
      Version.vlt ⟨"1.2.3-beta".toList, 1, 2, 3, some "beta".toList, none⟩
        ⟨"1.2.3-alfa".toList, 1, 2, 3, some "alfa".toList, none⟩ = false ∧
      Version.veq ⟨"1.2.3-beta".toList, 1, 2, 3, some "beta".toList, none⟩
        ⟨"1.2.3-alfa".toList, 1, 2, 3, some "alfa".toList, none⟩ = false ∧
      Version.gt ⟨"1.2.3-beta".toList, 1, 2, 3, some "beta".toList, none⟩
        ⟨"1.2.3-alfa".toList, 1, 2, 3, some "alfa".toList, none⟩ = false :=
  ⟨rfl, rfl, rfl, rfl, rfl⟩

/-- Witness for C1 (amended) at `2.0.0` vs `1.9.9`. -/
theorem claim1_witness :
    (Version.vlt ⟨"2.0.0".toList, 2, 0, 0, none, none⟩
          ⟨"1.9.9".toList, 1, 9, 9, none, none⟩ = true ∧
        Version.veq ⟨"2.0.0".toList, 2, 0, 0, none, none⟩
          ⟨"1.9.9".toList, 1, 9, 9, none, none⟩ = false ∧
        Version.gt ⟨"2.0.0".toList, 2, 0, 0, none, none⟩
          ⟨"1.9.9".toList, 1, 9, 9, none, none⟩ = false) ∨
      (Version.vlt ⟨"2.0.0".toList, 2, 0, 0, none, none⟩
          ⟨"1.9.9".toList, 1, 9, 9, none, none⟩ = false ∧
        Version.veq ⟨"2.0.0".toList, 2, 0, 0, none, none⟩
          ⟨"1.9.9".toList, 1, 9, 9, none, none⟩ = true ∧
        Version.gt ⟨"2.0.0".toList, 2, 0, 0, none, none⟩
          ⟨"1.9.9".toList, 1, 9, 9, none, none⟩ = false) ∨
      (Version.vlt ⟨"2.0.0".toList, 2, 0, 0, none, none⟩
          ⟨"1.9.9".toList, 1, 9, 9, none, none⟩ = false ∧
        Version.veq ⟨"2.0.0".toList, 2, 0, 0, none, none⟩
          ⟨"1.9.9".toList, 1, 9, 9, none, none⟩ = false ∧
        Version.gt ⟨"2.0.0".toList, 2, 0, 0, none, none⟩
          ⟨"1.9.9".toList, 1, 9, 9, none, none⟩ = true) :=
  claim1_trichotomy_amended "2.0.0".toList "1.9.9".toList
    ⟨"2.0.0".toList, 2, 0, 0, none, none⟩ ⟨"1.9.9".toList, 1, 9, 9, none, none⟩
    rfl rfl (Or.inl (by decide))

/-! ### Lemmas for the prerelease tie-break (C4) -/

theorem splitChar_length_count (sep : Char) (l : List Char) :
    (splitChar sep l).length = l.count sep + 1 := by
  induction l with
  | nil => simp [splitChar]
  | cons c cs ih =>
    by_cases hc : c = sep
    · rw [splitChar, if_pos hc]
      have hcount : (c :: cs).count sep = cs.count sep + 1 := by
        simp [List.count_cons, hc]
      rw [List.length_cons, ih, hcount]
    · rw [splitChar, if_neg hc]
      have hcount : (c :: cs).count sep = cs.count sep := by
        simp [List.count_cons, hc]
      cases hs : splitChar sep cs with
      | nil => exact absurd hs (splitChar_ne_nil sep cs)
      | cons p ps =>
        rw [hs] at ih
        rw [hcount, ← ih]
        simp

theorem splitChar_singleton_inv (sep : Char) (l y : List Char)
    (h : splitChar sep l = [y]) : y = l := by
  induction l generalizing y with
  | nil => simpa [splitChar] using h.symm
  | cons c cs ih =>
    by_cases hc : c = sep
    · rw [splitChar, if_pos hc] at h
      have hne := splitChar_ne_nil sep cs
      simp only [List.cons.injEq] at h
      exact absurd h.2 hne
    · rw [splitChar, if_neg hc] at h
      cases hs : splitChar sep cs with
      | nil => exact absurd hs (splitChar_ne_nil sep cs)
      | cons p ps =>
        rw [hs] at h
        simp only [List.cons.injEq] at h
        obtain ⟨h1, h2⟩ := h
        have h3 : ps = [] := by simpa using h2
        rw [h3] at hs
        rw [← h1, ih p hs]

theorem splitChar_pair_tail (sep : Char) (l x y : List Char)
    (h : splitChar sep l = [x, y]) :
    (l.dropWhile (fun c => c ≠ sep)).tail = y := by
  induction l generalizing x with
  | nil => simp [splitChar] at h
  | cons c cs ih =>
    by_cases hc : c = sep
    · rw [splitChar, if_pos hc] at h
      simp only [List.cons.injEq] at h
      rw [List.dropWhile_cons, if_neg (by simp [hc]), List.tail_cons]
      exact (splitChar_singleton_inv sep cs y h.2).symm
    · rw [splitChar, if_neg hc] at h
      cases hs : splitChar sep cs with
      | nil => exact absurd hs (splitChar_ne_nil sep cs)
      | cons p ps =>
        rw [hs] at h
        simp only [List.cons.injEq] at h
        obtain ⟨h1, h2⟩ := h
        rw [List.dropWhile_cons, if_pos (by simp [hc])]
        exact ih p (by rw [hs, h2])

theorem tailComponent_eq_split (l : List Char) :
    tailComponent l =
      match splitChar '.' l with
      | [_, y] => some y
      | _ => none := by
  rw [tailComponent]
  by_cases h : l.count '.' = 1
  · rw [if_pos h]
    have hlen : (splitChar '.' l).length = 2 := by
      rw [splitChar_length_count, h]
    rcases hs : splitChar '.' l with _ | ⟨x, _ | ⟨y, _ | _⟩⟩ <;>
      rw [hs] at hlen <;> simp at hlen
    rw [splitChar_pair_tail '.' l x y hs]
  · rw [if_neg h]
    have hlen : (splitChar '.' l).length ≠ 2 := by
      rw [splitChar_length_count]
      omega
    rcases hs : splitChar '.' l with _ | ⟨x, _ | ⟨y, _ | _⟩⟩ <;>
      rw [hs] at hlen <;> simp at hlen

theorem extractLeft_eq_tail (ρ : List Char) :
    extractLeft ρ =
      match tailComponent ρ with
      | some x => .str x
      | none => .int (-1) := by
  rw [extractLeft, tailComponent_eq_split]
  rcases hs : splitChar '.' ρ with _ | ⟨x, _ | ⟨y, _ | _⟩⟩ <;> rfl

theorem extractRight_eq_tail (ρ : List Char) :
    extractRight ρ =
      match tailComponent ρ with
      | some x => .str x
      | none => .int 0 := by
  rw [extractRight, tailComponent_eq_split]
  rcases hs : splitChar '.' ρ with _ | ⟨x, _ | ⟨y, _ | _⟩⟩ <;> rfl

theorem pyGt_extract_iff (ρ σ : List Char) :
    pyGt (extractLeft ρ) (extractRight σ) = true ↔ preTieGt ρ σ := by
  rw [extractLeft_eq_tail, extractRight_eq_tail, preTieGt]
  cases tailComponent ρ with
  | none =>
    cases tailComponent σ with
    | none => simp [pyGt]
    | some y => simp [pyGt]
  | some x =>
    cases tailComponent σ with
    | none => simp [pyGt]
    | some y => simpa [pyGt] using strLt_iff_lex y x

/-- C4 (amended): with equal triples and both prereleases truthy, the
result is decided by the extracted trailing components (extracted
exactly when the label has one `.`), but compared as Python 2 values:
string against string lexicographically, any string above the integer
sentinels `-1`/`0`, and the sentinel pair itself never greater.  (As
originally stated — "compares the extracted numbers" — the claim fails:
`beta.9` counts as greater than `beta.10`.) -/
theorem claim4_string_tiebreak_amended (s t : List Char) (a b : Version)
    (hs : Version.make s = .ok a) (ht : Version.make t = .ok b)
    (htr : (a.major, a.minor, a.patch) = (b.major, b.minor, b.patch))
    (ρ σ : List Char) (hρ : a.release = some ρ) (hσ : b.release = some σ)
    (hρ0 : ρ ≠ []) (hσ0 : σ ≠ []) :
    (Version.gt a b = true ↔ preTieGt ρ σ) ∧
      (Version.vlt a b = true ↔ preTieGt σ ρ) := by
  have hgt : ∀ (x y : Version) (ρx σy : List Char),
      (x.major, x.minor, x.patch) = (y.major, y.minor, y.patch) →
      x.release = some ρx → y.release = some σy → ρx ≠ [] → σy ≠ [] →
      (Version.gt x y = true ↔ preTieGt ρx σy) := by
    intro x y ρx σy htr2 hx hy hx0 hy0
    have htx : truthy x.release = true := by simp [hx, truthy, hx0]
    have hty : truthy y.release = true := by simp [hy, truthy, hy0]
    simp only [Version.gt]
    rw [htr2, tupleGt3_self]
    simp only [htx, hty, hx, hy]
    have e1 : truthy (some ρx) = true := by simp [truthy, hx0]
    have e2 : truthy (some σy) = true := by simp [truthy, hy0]
    rw [e1, e2]
    simp only [if_true, eq_self_iff_true, true_and, and_true,
      Bool.true_eq_false, Bool.false_eq_true, and_self, and_false, false_and,
      if_false]
    exact pyGt_extract_iff ρx σy
  refine ⟨hgt a b ρ σ htr hρ hσ hρ0 hσ0, ?_⟩
  rw [Version.vlt]
  exact hgt b a σ ρ htr.symm hσ hρ hσ0 hρ0

/-- Counterexample to C4 as stated: the extracted trailing components
of `1.2.3-beta.9` and `1.2.3-beta.10` are the numerals 9 and 10, so a
numeric comparison would make the first LESS; the code instead returns
GREATER because it compares the strings `'9' > '10'`. -/
theorem claim4_counterexample :
    Version.make "1.2.3-beta.9".toList
        = .ok ⟨"1.2.3-beta.9".toList, 1, 2, 3, some "beta.9".toList, none⟩ ∧
      Version.make "1.2.3-beta.10".toList
        = .ok ⟨"1.2.3-beta.10".toList, 1, 2, 3, some "beta.10".toList, none⟩ ∧
      strToNat "9".toList = 9 ∧ strToNat "10".toList = 10 ∧
      Version.gt ⟨"1.2.3-beta.9".toList, 1, 2, 3, some "beta.9".toList, none⟩
        ⟨"1.2.3-beta.10".toList, 1, 2, 3, some "beta.10".toList, none⟩ = true :=
  ⟨rfl, rfl, rfl, rfl, rfl⟩

/-- Witness for C4 (amended): `1.2.3-beta.1 < 1.2.3-beta.2`. -/
theorem claim4_witness :
    (Version.gt ⟨"1.2.3-beta.1".toList, 1, 2, 3, some "beta.1".toList, none⟩
          ⟨"1.2.3-beta.2".toList, 1, 2, 3, some "beta.2".toList, none⟩ = true ↔
        preTieGt "beta.1".toList "beta.2".toList) ∧
      (Version.vlt ⟨"1.2.3-beta.1".toList, 1, 2, 3, some "beta.1".toList, none⟩
          ⟨"1.2.3-beta.2".toList, 1, 2, 3, some "beta.2".toList, none⟩ = true ↔
        preTieGt "beta.2".toList "beta.1".toList) :=
  claim4_string_tiebreak_amended "1.2.3-beta.1".toList "1.2.3-beta.2".toList
    ⟨"1.2.3-beta.1".toList, 1, 2, 3, some "beta.1".toList, none⟩
    ⟨"1.2.3-beta.2".toList, 1, 2, 3, some "beta.2".toList, none⟩
    rfl rfl rfl "beta.1".toList "beta.2".toList rfl rfl (by decide) (by decide)

/-- C9: every input of the form `{major}`, `{major}.{minor}`, or
`{major}.{minor}.{patch}` with non-negative integer (digit-string)
components parses successfully, converts the supplied components with
`int`, defaults the missing trailing components to 0, and leaves
prerelease and build absent. -/
theorem claim9_defaults (d1 d2 d3 : List Char)
    (h1 : d1 ≠ []) (hd1 : ∀ c ∈ d1, c.isDigit = true)
    (h2 : d2 ≠ []) (hd2 : ∀ c ∈ d2, c.isDigit = true)
    (h3 : d3 ≠ []) (hd3 : ∀ c ∈ d3, c.isDigit = true) :
    parse_version d1 = .ok (strToNat d1, 0, 0, none, none) ∧
      parse_version (d1 ++ '.' :: d2)
        = .ok (strToNat d1, strToNat d2, 0, none, none) ∧
      parse_version (d1 ++ '.' :: (d2 ++ '.' :: d3))
        = .ok (strToNat d1, strToNat d2, strToNat d3, none, none) := by
  have nodot : ∀ (d : List Char), (∀ c ∈ d, c.isDigit = true) → ('.' : Char) ∉ d :=
    fun d hd hm => (isDigit_ne_special _ (hd '.' hm)).1 rfl
  refine ⟨?_, ?_, ?_⟩
  · have hstrip : stripV d1 = d1 := by
      have e := stripV_append_digits d1 [] h1 hd1
      simpa using e
    rw [parse_version, hstrip,
      matchVersion_all_ver d1 h1 (fun c hc => isDigit_isVerChar c (hd1 c hc))]
    simp only [splitChar_no_sep '.' d1 (nodot d1 hd1)]
    simp [parseNumeric3, pyInt_digits d1 h1 hd1]
  · have hall : ∀ c ∈ d1 ++ '.' :: d2, isVerChar c = true := by
      intro c hc
      simp only [List.mem_append, List.mem_cons] at hc
      rcases hc with h | h | h
      · exact isDigit_isVerChar c (hd1 c h)
      · rw [h]; rfl
      · exact isDigit_isVerChar c (hd2 c h)
    have hne : d1 ++ '.' :: d2 ≠ [] := by cases d1 <;> simp
    have hstrip : stripV (d1 ++ '.' :: d2) = d1 ++ '.' :: d2 :=
      stripV_append_digits d1 ('.' :: d2) h1 hd1
    rw [parse_version, hstrip, matchVersion_all_ver _ hne hall]
    simp only [splitChar_append '.' d1 d2 (nodot d1 hd1),
      splitChar_no_sep '.' d2 (nodot d2 hd2)]
    simp [parseNumeric3, pyInt_digits d1 h1 hd1, pyInt_digits d2 h2 hd2]
  · have hall : ∀ c ∈ d1 ++ '.' :: (d2 ++ '.' :: d3), isVerChar c = true := by
      intro c hc
      simp only [List.mem_append, List.mem_cons] at hc
      rcases hc with h | h | h | h | h
      · exact isDigit_isVerChar c (hd1 c h)
      · rw [h]; rfl
      · exact isDigit_isVerChar c (hd2 c h)
      · rw [h]; rfl
      · exact isDigit_isVerChar c (hd3 c h)
    have hne : d1 ++ '.' :: (d2 ++ '.' :: d3) ≠ [] := by cases d1 <;> simp
    have hstrip : stripV (d1 ++ '.' :: (d2 ++ '.' :: d3))
        = d1 ++ '.' :: (d2 ++ '.' :: d3) :=
      stripV_append_digits d1 ('.' :: (d2 ++ '.' :: d3)) h1 hd1
    rw [parse_version, hstrip, matchVersion_all_ver _ hne hall]
    simp only [splitChar_append '.' d1 _ (nodot d1 hd1),
      splitChar_append '.' d2 d3 (nodot d2 hd2),
      splitChar_no_sep '.' d3 (nodot d3 hd3)]
    simp [parseNumeric3, pyInt_digits d1 h1 hd1, pyInt_digits d2 h2 hd2,
      pyInt_digits d3 h3 hd3]

/-- Witness for C9 on `7`, `7.4`, `7.4.2`. -/
theorem claim9_witness :
    parse_version "7".toList = .ok (strToNat "7".toList, 0, 0, none, none) ∧
      parse_version ("7".toList ++ '.' :: "4".toList)
        = .ok (strToNat "7".toList, strToNat "4".toList, 0, none, none) ∧
      parse_version ("7".toList ++ '.' :: ("4".toList ++ '.' :: "2".toList))
        = .ok (strToNat "7".toList, strToNat "4".toList, strToNat "2".toList,
            none, none) :=
  claim9_defaults "7".toList "4".toList "2".toList (by decide) (by decide)
    (by decide) (by decide) (by decide) (by decide)

/-- C10 (amended): a stored prerelease label never contains `+` at all
(in particular it cannot begin with `+`); but only one leading `-`
separator is consumed, so the label can still begin with `-` when the
input carried a doubled separator. -/
theorem claim10_no_plus_amended (s : List Char) (M m p : Nat)
    (r b : Option (List Char)) (ρ : List Char)
    (h : parse_version s = .ok (M, m, p, r, b)) (hρ : r = some ρ) :
    '+' ∉ ρ ∧ ρ.head? ≠ some '+' := by
  obtain ⟨hr, -⟩ := parse_version_ok_inv s M m p r b h
  have h2 := (hr ρ hρ).1
  refine ⟨h2, fun hh => ?_⟩
  cases ρ with
  | nil => simp at hh
  | cons c cs =>
    have hc : c = '+' := by simpa using hh
    exact h2 (by simp [hc])

/-- Counterexample to C10 as stated: parsing `1.2.3--a` stores the
prerelease `-a`, which begins with the separator character `-` (only
the first `-` was consumed). -/
theorem claim10_counterexample :
    parse_version "1.2.3--a".toList = .ok (1, 2, 3, some "-a".toList, none) ∧
      ("-a".toList).head? = some '-' :=
  ⟨rfl, rfl⟩

/-- Witness for C10 (amended) at the same input `1.2.3--a`. -/
theorem claim10_witness :
    '+' ∉ "-a".toList ∧ ("-a".toList).head? ≠ some '+' :=
  claim10_no_plus_amended "1.2.3--a".toList 1 2 3 (some "-a".toList) none
    "-a".toList rfl rfl

/-- C6 (amended): `parse (render v)` recovers all five fields of any
parsed `v` whose release and build are not the empty string, and
`render (parse s)` reproduces `s` for every string in fully canonical
form.  (As stated the claim fails: `1.2.3-+x` parses to an
empty-string release with build `x`, renders as `1.2.3+x`, and that
string is rejected by the parser.) -/
theorem claim6_roundtrip_amended :
    (∀ s v, Version.make s = .ok v → v.release ≠ some [] → v.build ≠ some [] →
      ∃ w, Version.make v.render = .ok w ∧ w.segments = v.segments) ∧
      (∀ s, canonicalVersionString s →
        ∃ v, Version.make s = .ok v ∧ v.render = s) := by
  constructor
  · intro s v hmake hrel hbuild
    have hp : parse_version s
        = .ok (v.major, v.minor, v.patch, v.release, v.build) := by
      rw [Version.make] at hmake
      cases hpv : parse_version s with
      | error e => rw [hpv] at hmake; simp at hmake
      | ok out =>
        obtain ⟨M, m, p, r, b⟩ := out
        rw [hpv] at hmake
        simp only [Except.ok.injEq] at hmake
        rw [← hmake]
    obtain ⟨hr, hb⟩ := parse_version_ok_inv s v.major v.minor v.patch
      v.release v.build hp
    have hr2 : ∀ ρ, v.release = some ρ → ρ ≠ [] ∧ '+' ∉ ρ ∧ '\n' ∉ ρ := by
      intro ρ hρ
      exact ⟨fun e => hrel (by rw [hρ, e]), (hr ρ hρ).1, (hr ρ hρ).2⟩
    have hb2 : ∀ β, v.build = some β → β ≠ [] ∧ '+' ∉ β ∧ '\n' ∉ β ∧
        ∃ ρ, v.release = some ρ ∧ ρ ≠ [] := by
      intro β hβ
      obtain ⟨hβp, hβn, ρ, hρ⟩ := hb β hβ
      exact ⟨fun e => hbuild (by rw [hβ, e]), hβp, hβn, ρ, hρ,
        fun e => hrel (by rw [hρ, e])⟩
    have hpr := parse_render_fields v.major v.minor v.patch v.release v.build
      v.version hr2 hb2
    refine ⟨⟨v.render, v.major, v.minor, v.patch, v.release, v.build⟩, ?_, rfl⟩
    rw [Version.make, hpr]
  · intro s hcanon
    obtain ⟨M, m, p, tail, hs, hshape⟩ := hcanon
    rcases hshape with htail | ⟨ρ, htail, hρ0, hρp, hρn⟩ |
      ⟨ρ, β, htail, hρ0, hρp, hρn, hβ0, hβp, hβn⟩
    · have hrender : Version.render ⟨s, M, m, p, none, none⟩ = s := by
        rw [hs, htail]
        simp [Version.render, truthy, List.append_assoc]
      have hpr := parse_render_fields M m p none none s
        (fun ρ hρ => by simp at hρ) (fun β hβ => by simp at hβ)
      rw [hrender] at hpr
      exact ⟨⟨s, M, m, p, none, none⟩, by rw [Version.make, hpr], hrender⟩
    · have hrender : Version.render ⟨s, M, m, p, some ρ, none⟩ = s := by
        rw [hs, htail]
        simp [Version.render, truthy, hρ0, List.append_assoc]
      have hpr := parse_render_fields M m p (some ρ) none s
        (fun ρ2 hρ2 => by
          simp only [Option.some.injEq] at hρ2
          rw [← hρ2]
          exact ⟨hρ0, hρp, hρn⟩)
        (fun β hβ => by simp at hβ)
      rw [hrender] at hpr
      exact ⟨⟨s, M, m, p, some ρ, none⟩, by rw [Version.make, hpr], hrender⟩
    · have hrender : Version.render ⟨s, M, m, p, some ρ, some β⟩ = s := by
        rw [hs, htail]
        simp [Version.render, truthy, hρ0, hβ0, List.append_assoc]
      have hpr := parse_render_fields M m p (some ρ) (some β) s
        (fun ρ2 hρ2 => by
          simp only [Option.some.injEq] at hρ2
          rw [← hρ2]
          exact ⟨hρ0, hρp, hρn⟩)
        (fun β2 hβ2 => by
          simp only [Option.some.injEq] at hβ2
          rw [← hβ2]
          exact ⟨hβ0, hβp, hβn, ρ, rfl, hρ0⟩)
      rw [hrender] at hpr
      exact ⟨⟨s, M, m, p, some ρ, some β⟩, by rw [Version.make, hpr], hrender⟩

/-- Counterexample to C6 as stated: `1.2.3-+x` parses successfully
(release `''`, build `x`), but its rendering `1.2.3+x` is rejected by
the parser, so `parse (render v)` does not equal `v`; for the same
input `render (parse s)` differs from `s` although `s` has no leading
`v` and all three numeric components. -/
theorem claim6_counterexample :
    Version.make "1.2.3-+x".toList
        = .ok ⟨"1.2.3-+x".toList, 1, 2, 3, some [], some "x".toList⟩ ∧
      Version.render ⟨"1.2.3-+x".toList, 1, 2, 3, some [], some "x".toList⟩
        = "1.2.3+x".toList ∧
      parse_version "1.2.3+x".toList = .error .formatError ∧
      Version.render ⟨"1.2.3-+x".toList, 1, 2, 3, some [], some "x".toList⟩
        ≠ "1.2.3-+x".toList :=
  ⟨rfl, rfl, rfl, by decide⟩

/-- Witness for C6 (amended), part 1, at `1.2.3-beta+b5`. -/
theorem claim6_witness :
    ∃ w, Version.make
        (Version.render ⟨"1.2.3-beta+b5".toList, 1, 2, 3, some "beta".toList,
          some "b5".toList⟩) = .ok w ∧
      w.segments = Version.segments ⟨"1.2.3-beta+b5".toList, 1, 2, 3,
        some "beta".toList, some "b5".toList⟩ :=
  claim6_roundtrip_amended.1 "1.2.3-beta+b5".toList
    ⟨"1.2.3-beta+b5".toList, 1, 2, 3, some "beta".toList, some "b5".toList⟩
    rfl (by decide) (by decide)

/-! ### Lemmas for the failure characterization (C7) -/

theorem parseSuffix_dash_any (body : List Char) :
    ∃ r b, parseSuffix ('-' :: body) = .ok (r, b) := by
  rw [parseSuffix]
  obtain ⟨pp, pps, hpp⟩ := splitChar_cons_ne_sep '+' '-' body (by decide)
  rw [hpp]
  exact ⟨pp, pps.head?, rfl⟩

theorem parseNumeric3_characterization (parts : List (List Char))
    (hne : parts ≠ [])
    (hdig : ∀ p ∈ parts, ∀ c ∈ p, c.isDigit = true) :
    ((parts.length ≤ 3 ∧ ∀ p ∈ parts, p ≠ []) →
        ∃ trip, parseNumeric3 parts = .ok trip) ∧
      (¬(parts.length ≤ 3 ∧ ∀ p ∈ parts, p ≠ []) →
        parseNumeric3 parts = .error .formatError) := by
  have hpy : ∀ p ∈ parts, p ≠ [] → pyInt p = some (strToNat p) := by
    intro p hp hp0
    exact pyInt_digits p hp0 (hdig p hp)
  rcases parts with _ | ⟨p0, _ | ⟨p1, _ | ⟨p2, _ | ⟨p3, ps⟩⟩⟩⟩
  · exact absurd rfl hne
  · constructor
    · rintro ⟨-, hall⟩
      have h0 := hall p0 (by simp)
      rw [parseNumeric3, hpy p0 (by simp) h0]
      exact ⟨_, rfl⟩
    · intro hcond
      have h0 : p0 = [] := by
        by_contra h0
        exact hcond ⟨by simp, by simpa using h0⟩
      rw [parseNumeric3, h0]
      rfl
  · constructor
    · rintro ⟨-, hall⟩
      have h0 := hall p0 (by simp)
      have h1 := hall p1 (by simp)
      rw [parseNumeric3, hpy p0 (by simp) h0, hpy p1 (by simp) h1]
      exact ⟨_, rfl⟩
    · intro hcond
      have hor : p0 = [] ∨ p1 = [] := by
        by_contra hor
        simp only [not_or] at hor
        refine hcond ⟨by simp, ?_⟩
        intro p hp
        simp only [List.mem_cons, List.not_mem_nil, or_false] at hp
        rcases hp with h | h
        · rw [h]; exact hor.1
        · rw [h]; exact hor.2
      rcases hor with h | h
      · rw [parseNumeric3, h]
        rfl
      · rw [parseNumeric3, h]
        cases hp0 : pyInt p0 <;> simp [pyInt]
  · constructor
    · rintro ⟨-, hall⟩
      have h0 := hall p0 (by simp)
      have h1 := hall p1 (by simp)
      have h2 := hall p2 (by simp)
      rw [parseNumeric3, hpy p0 (by simp) h0, hpy p1 (by simp) h1,
        hpy p2 (by simp) h2]
      exact ⟨_, rfl⟩
    · intro hcond
      have hor : p0 = [] ∨ p1 = [] ∨ p2 = [] := by
        by_contra hor
        simp only [not_or] at hor
        refine hcond ⟨by simp, ?_⟩
        intro p hp
        simp only [List.mem_cons, List.not_mem_nil, or_false] at hp
        rcases hp with h | h | h
        · rw [h]; exact hor.1
        · rw [h]; exact hor.2.1
        · rw [h]; exact hor.2.2
      rcases hor with h | h | h
      · rw [parseNumeric3, h]
        rfl
      · rw [parseNumeric3, h]
        cases hp0 : pyInt p0 <;> simp [pyInt]
      · rw [parseNumeric3, h]
        cases hp0 : pyInt p0 <;> cases hp1 : pyInt p1 <;> simp [pyInt]
  · constructor
    · rintro ⟨hlen, -⟩
      exfalso
      simp only [List.length_cons] at hlen
      omega
    · intro hcond
      rw [parseNumeric3]
      cases hp0 : pyInt p0 <;> cases hp1 : pyInt p1 <;>
        cases hp2 : pyInt p2 <;> simp

theorem suffix_characterization (rest : List Char) :
    (plusSuffixFlag rest = true →
        ∃ body, matchSuffix rest = some ('+' :: body)) ∧
      (plusSuffixFlag rest = false →
        matchSuffix rest = none ∨
          ∃ body, matchSuffix rest = some ('-' :: body)) := by
  cases rest with
  | nil =>
    exact ⟨fun h => by simp [plusSuffixFlag] at h, fun _ => Or.inl rfl⟩
  | cons c ds =>
    by_cases hc : c = '+'
    · subst hc
      cases ds with
      | nil =>
        constructor
        · intro h
          simp [plusSuffixFlag] at h
        · intro _
          left
          rw [matchSuffix]
          simp
      | cons d ds2 =>
        by_cases hd : d = '\n'
        · subst hd
          constructor
          · intro h
            simp [plusSuffixFlag] at h
          · intro _
            left
            rw [matchSuffix, if_pos (Or.inr rfl)]
            simp [List.takeWhile_cons]
        · constructor
          · intro _
            rw [matchSuffix, if_pos (Or.inr rfl)]
            rw [List.takeWhile_cons, if_pos (by simpa using hd)]
            exact ⟨_, rfl⟩
          · intro h
            simp [plusSuffixFlag, hd] at h
    · have hflag : plusSuffixFlag (c :: ds) = false := by
        cases ds with
        | nil => rfl
        | cons d ds2 => simp [plusSuffixFlag, hc]
      refine ⟨fun h => absurd (hflag ▸ h) (by simp), fun _ => ?_⟩
      by_cases hcm : c = '-'
      · subst hcm
        rw [matchSuffix, if_pos (Or.inl rfl)]
        cases htw : ds.takeWhile (fun x => x ≠ '\n') with
        | nil => exact Or.inl rfl
        | cons b bs => exact Or.inr ⟨b :: bs, rfl⟩
      · rw [matchSuffix, if_neg (by simp [hcm, hc])]
        exact Or.inl rfl

/-- C7 (amended): parse fails with FormatError exactly when, after
stripping an optional leading `v`, the string does not begin with a
digit or `.`, or the leading `[0-9.]` run splits on `.` into an empty
component or more than three components, or the text immediately after
the run begins with `+` followed by a non-newline character.  On every
other input parse succeeds; trailing text that does not form a
capturable `-`/`+` suffix is silently ignored rather than rejected
(which refutes the original "exactly when" claim, e.g. on `1.2.3x`). -/
theorem claim7_failure_amended (s : List Char) :
    (goodVersion (stripV s) = true → ∃ out, parse_version s = .ok out) ∧
      (goodVersion (stripV s) = false → parse_version s = .error .formatError) := by
  by_cases hrun : (stripV s).takeWhile isVerChar = []
  · have hm : matchVersion (stripV s) = none := by
      rw [matchVersion, if_pos hrun]
    have hg : goodVersion (stripV s) = false := by
      rw [goodVersion]
      simp [hrun]
    refine ⟨fun h => absurd (hg ▸ h) (by simp), fun _ => ?_⟩
    rw [parse_version, hm]
  · have hm : matchVersion (stripV s)
        = some ((stripV s).takeWhile isVerChar,
            matchSuffix ((stripV s).dropWhile isVerChar)) := by
      rw [matchVersion, if_neg hrun]
    have hdig : ∀ p ∈ splitChar '.' ((stripV s).takeWhile isVerChar),
        ∀ c ∈ p, c.isDigit = true := by
      intro p hp c hc
      have h1 := mem_splitChar_subset '.' _ p hp c hc
      have h2 := mem_splitChar_not_sep '.' _ p hp
      have h3 := mem_takeWhile_sat isVerChar (stripV s) c h1
      have h4 : c ≠ '.' := fun e => h2 (e ▸ hc)
      rw [isVerChar] at h3
      simp only [Bool.or_eq_true, decide_eq_true_eq] at h3
      rcases h3 with h | h
      · exact h
      · exact absurd h h4
    have hchar := parseNumeric3_characterization
      (splitChar '.' ((stripV s).takeWhile isVerChar))
      (splitChar_ne_nil _ _) hdig
    have hsuf := suffix_characterization ((stripV s).dropWhile isVerChar)
    have hgood_iff : goodVersion (stripV s) = true ↔
        (((splitChar '.' ((stripV s).takeWhile isVerChar)).length ≤ 3 ∧
          ∀ p ∈ splitChar '.' ((stripV s).takeWhile isVerChar), p ≠ []) ∧
          plusSuffixFlag ((stripV s).dropWhile isVerChar) = false) := by
      simp only [goodVersion, Bool.and_eq_true, Bool.not_eq_true',
        decide_eq_true_eq, List.all_eq_true]
      constructor
      · rintro ⟨⟨⟨-, hlen⟩, hall⟩, hflag⟩
        exact ⟨⟨hlen, fun p hp => by simpa using hall p hp⟩, hflag⟩
      · rintro ⟨⟨hlen, hall⟩, hflag⟩
        refine ⟨⟨⟨?_, hlen⟩, fun p hp => by simpa using hall p hp⟩, hflag⟩
        simpa using hrun
    constructor
    · intro hgood
      obtain ⟨⟨hlen, hall⟩, hflag⟩ := hgood_iff.mp hgood
      obtain ⟨trip, htrip⟩ := hchar.1 ⟨hlen, hall⟩
      obtain ⟨M1, m1, p1⟩ := trip
      rcases hsuf.2 hflag with hnone | ⟨body, hsome⟩
      · refine ⟨(M1, m1, p1, none, none), ?_⟩
        rw [parse_version, hm]
        simp only [hnone, htrip]
      · obtain ⟨r, b, hps⟩ := parseSuffix_dash_any body
        refine ⟨(M1, m1, p1, some r, b), ?_⟩
        rw [parse_version, hm]
        simp only [hsome, htrip, hps]
    · intro hbad
      by_cases hnumeric :
          (splitChar '.' ((stripV s).takeWhile isVerChar)).length ≤ 3 ∧
            ∀ p ∈ splitChar '.' ((stripV s).takeWhile isVerChar), p ≠ []
      · by_cases hflag : plusSuffixFlag ((stripV s).dropWhile isVerChar) = true
        · obtain ⟨body, hsome⟩ := hsuf.1 hflag
          obtain ⟨trip, htrip⟩ := hchar.1 hnumeric
          obtain ⟨M1, m1, p1⟩ := trip
          rw [parse_version, hm]
          simp only [hsome, htrip, parseSuffix_plus]
        · have hgood : goodVersion (stripV s) = true :=
            hgood_iff.mpr ⟨hnumeric, Bool.eq_false_iff.mpr hflag⟩
          rw [hgood] at hbad
          exact absurd hbad (by simp)
      · have herr := hchar.2 hnumeric
        rw [parse_version, hm]
        simp only [herr]

/-- Counterexample to C7 as stated: `1.2.3x` carries a suffix `x` that
does not begin with `-`, which the claim says must be rejected with
FormatError, yet parsing succeeds, silently ignoring the trailing
text. -/
theorem claim7_counterexample :
    parse_version "1.2.3x".toList = .ok (1, 2, 3, none, none) := rfl

/-- Witness for C7 (amended): `1.2.3-beta` is accepted while `abc` and
`1.2.3.4` fail with FormatError. -/
theorem claim7_witness :
    (∃ out, parse_version "1.2.3-beta".toList = .ok out) ∧
      parse_version "abc".toList = .error .formatError ∧
      parse_version "1.2.3.4".toList = .error .formatError :=
  ⟨(claim7_failure_amended "1.2.3-beta".toList).1 rfl,
    (claim7_failure_amended "abc".toList).2 rfl,
    (claim7_failure_amended "1.2.3.4".toList).2 rfl⟩

end PyAlfred
